import Mathlib

/-
Shallow embedding of `src/generate_cone.py`.

Conventions used throughout this development:
* Python dicts of blocks (`map_data['blocks']`, `cone_blocks`, ...) are modelled
  as insertion-ordered association lists `List (String × ℤ)`; iteration order of
  a Python dict is its insertion order, which the list order models.
* Python floats are modelled by real numbers (exact real arithmetic).
* The process-wide random generator is modelled by an explicit stream of real
  numbers together with a cursor: each call to `random.random()` /
  `random.uniform` returns the stream value at the cursor and advances it.
* The breadth-first flood fill of the source terminates because each coordinate
  is visited at most once; the embedding makes this explicit with a fuel
  parameter that is always large enough (`floodFuel`).
-/

namespace ConeGen

/-- Decimal digit characters of a natural number, most significant digit first.
Models Python `str` on a nonnegative integer; the fuel argument only drives the
recursion on `n / 10` and `natChars` always supplies enough of it. -/
def natCharsAux : ℕ → ℕ → List Char
  | 0, _ => []
  | fuel + 1, n =>
    if n < 10 then [Nat.digitChar n] else natCharsAux fuel (n / 10) ++ [Nat.digitChar (n % 10)]

/-- Decimal representation of a natural number, e.g. `natChars 120 = ['1','2','0']`. -/
def natChars (n : ℕ) : List Char := natCharsAux (n + 1) n

/-- Models Python `str` on an int (possibly negative). -/
def intChars (i : ℤ) : List Char :=
  if i < 0 then '-' :: natChars i.natAbs else natChars i.toNat

/-- The coordinate key format `f"{x},{y},{z}"` used at lines 27, 86 and 122 of
`generate_cone.py`. -/
def encodeKey (x y z : ℤ) : String :=
  ⟨intChars x ++ ',' :: intChars y ++ ',' :: intChars z⟩

/-- Value of a decimal digit character, `none` on any other character. -/
def charDigit (c : Char) : Option ℕ :=
  if '0' ≤ c ∧ c ≤ '9' then some (c.toNat - '0'.toNat) else none

def parseNatAux : List Char → ℕ → Option ℕ
  | [], acc => some acc
  | c :: cs, acc =>
    match charDigit c with
    | some d => parseNatAux cs (acc * 10 + d)
    | none => none

/-- Models Python `int()` on an unsigned decimal string; `none` models the
`ValueError` raised on malformed input. -/
def parseNat : List Char → Option ℕ
  | [] => none
  | c :: cs => parseNatAux (c :: cs) 0

/-- Models Python `int()` on an optionally negated decimal string. -/
def parseInt : List Char → Option ℤ
  | [] => none
  | c :: cs =>
    if c = '-' then
      match parseNat cs with
      | some n => some (-(n : ℤ))
      | none => none
    else
      match parseNat (c :: cs) with
      | some n => some ((n : ℤ))
      | none => none

/-- Models Python `str.split(',')`. -/
def splitComma : List Char → List (List Char)
  | [] => [[]]
  | c :: cs =>
    if c = ',' then [] :: splitComma cs
    else
      match splitComma cs with
      | [] => [[c]]
      | h :: t => (c :: h) :: t

/-- Models `x, y, z = map(int, coord.split(','))` (line 37 of the source);
`none` models the exception raised on a malformed key. -/
def decodeKey (s : String) : Option (ℤ × ℤ × ℤ) :=
  match splitComma s.data with
  | [a, b, c] =>
    match parseInt a, parseInt b, parseInt c with
    | some x, some y, some z => some (x, y, z)
    | _, _, _ => none
  | _ => none

/-- A sparse block grid: insertion-ordered association list from coordinate key
to block-type id. -/
abbrev Grid := List (String × ℤ)

/-- Models `blocks[key]` / `key in blocks` (first matching entry; dict keys are
unique so this agrees with Python). -/
def dictGet (k : String) : Grid → Option ℤ
  | [] => none
  | e :: es => if e.1 = k then some e.2 else dictGet k es

/-- `get_neighbors` of the source (line 11). -/
def get_neighbors (x z : ℤ) : List (ℤ × ℤ) :=
  [(x + 1, z), (x - 1, z), (x, z + 1), (x, z - 1)]

/-- Breadth-first `flood_fill` of the source (lines 14-31).  State:
`visited` (the enclosing function's visited set), the FIFO `queue`, and the
accumulated `platform`.  Returns the platform together with the grown visited
set.  The fuel parameter drives the recursion; each iteration pops one queue
entry exactly as the `while queue` loop does. -/
def flood_fill (blocks : Grid) :
    ℕ → List (ℤ × ℤ) → List (ℤ × ℤ) → List (ℤ × ℤ) → List (ℤ × ℤ) × List (ℤ × ℤ)
  | 0, visited, _, platform => (platform, visited)
  | _ + 1, visited, [], platform => (platform, visited)
  | fuel + 1, visited, c :: queue, platform =>
    if c ∈ visited then flood_fill blocks fuel visited queue platform
    else
      let visited' := visited ++ [c]
      let nbrs := (get_neighbors c.1 c.2).filter fun q =>
        decide (dictGet (encodeKey q.1 0 q.2) blocks = some 24 ∧ q ∉ visited')
      flood_fill blocks fuel visited' (queue ++ nbrs) (platform ++ [c])

/-- Fuel that upper-bounds the number of `while queue` iterations: the queue
receives the seed plus at most four pushes per newly visited cell, and at most
`blocks.length` cells are ever newly visited from one or the other seed. -/
def floodFuel (blocks : Grid) : ℕ := 4 * blocks.length + 8

/-- One iteration of the `for coord in blocks` loop of `find_platforms`
(lines 34-41).  The accumulator carries the discovered platforms and the
visited set. -/
def detectStep (blocks : Grid) (acc : List (List (ℤ × ℤ)) × List (ℤ × ℤ))
    (entry : String × ℤ) : List (List (ℤ × ℤ)) × List (ℤ × ℤ) :=
  if entry.2 ≠ 24 then acc
  else
    match decodeKey entry.1 with
    | none => acc
    | some (x, _, z) =>
      if (x, z) ∈ acc.2 then acc
      else
        let pv := flood_fill blocks (floodFuel blocks) acc.2 [(x, z)] []
        (if pv.1.length > 50 then acc.1 ++ [pv.1] else acc.1, pv.2)

/-- `find_platforms` of the source (lines 6-43). -/
def find_platforms (blocks : Grid) : List (List (ℤ × ℤ)) :=
  (blocks.foldl (detectStep blocks) ([], [])).1

/-- The merge loop of `main` (lines 159-162): insert-if-absent each generated
block into the grid. -/
def mergeBlocks (grid newBlocks : Grid) : Grid :=
  newBlocks.foldl (fun acc e => if (dictGet e.1 acc).isSome then acc else acc ++ [e]) grid

/-- Python `d[k] = v` on a dict: overwrite in place if the key is present
(keeping its position), append otherwise. -/
def dictInsert (d : Grid) (k : String) (v : ℤ) : Grid :=
  if (dictGet k d).isSome then d.map (fun e => if e.1 = k then (k, v) else e)
  else d ++ [(k, v)]

/-- Python `d.update(n)` on dicts, as used by `all_cone_blocks.update(...)`
(line 155) and `cone_blocks.update(platform_blocks)` (line 98). -/
def dictUpdate (d n : Grid) : Grid := n.foldl (fun acc e => dictInsert acc e.1 e.2) d

/-- The integers from `lo` to `hi` inclusive, in order: Python
`range(lo, hi + 1)`. -/
def intRange (lo hi : ℤ) : List ℤ :=
  (List.range (hi - lo + 1).toNat).map fun (i : ℕ) => lo + (i : ℤ)

/-- A grid holding a single contiguous 8×8 square of block id 24 at y = 0. -/
def grid64 : Grid :=
  (intRange 0 7).flatMap fun i => (intRange 0 7).map fun j => (encodeKey i 0 j, (24 : ℤ))

/-- `grid64` plus one target block away from y = 0, listed first so that the
`for coord in blocks` loop of `find_platforms` reaches it first. -/
def grid65 : Grid := (encodeKey 8 1 0, 24) :: grid64


/-- A one-entry grid used to witness the merge lemmas. -/
def gridW : Grid := [(encodeKey 0 0 0, 24)]

/-- Generated blocks whose first key collides with `gridW`. -/
def newW : Grid := [(encodeKey 0 0 0, 37), (encodeKey 1 0 0, 4)]

/-- Cone blocks of a first platform. -/
def coneW1 : Grid := [(encodeKey 0 (-1) 0, 37)]

/-- Cone blocks of a second platform, colliding with `coneW1` on one key. -/
def coneW2 : Grid := [(encodeKey 0 (-1) 0, 4), (encodeKey 1 (-1) 0, 24)]

/-- A grid disjoint from the cone keys. -/
def gridW2 : Grid := [(encodeKey 5 0 5, 24)]

/-! ### The generator: random streams, cap layer, hanging cone

Python floats are modelled by real numbers; `math.sqrt`, `math.sin`,
`math.atan2` by their exact real counterparts; `y ** 0.7` by `Real.rpow`.
The process-wide random generator is an explicit stream with a cursor; each
`random.random()` / `random.uniform(..)` call reads the stream at the cursor
and advances it, the returned value being the value the library call produced.
-/

/-- The state of the random source: the stream of values produced by
successive library calls, and the index of the next one. -/
structure Rng where
  stream : ℕ → ℝ
  idx : ℕ

/-- One call to the random library: yields the next stream value. -/
def rand (r : Rng) : ℝ × Rng := (r.stream r.idx, ⟨r.stream, r.idx + 1⟩)

/-- `[random.uniform(..) for _ in range(n)]` (lines 51-52): `n` successive
draws. -/
def drawList : ℕ → Rng → List ℝ × Rng
  | 0, r => ([], r)
  | n + 1, r =>
    let u := rand r
    let rest := drawList n u.2
    (u.1 :: rest.1, rest.2)

/-- Python `int()` on a float: truncation toward zero. -/
noncomputable def pyInt (x : ℝ) : ℤ := if 0 ≤ x then ⌊x⌋ else -⌊-x⌋

/-- `math.atan2 y x`, the argument of the point (x, y). -/
noncomputable def pyAtan2 (y x : ℝ) : ℝ := Complex.arg ⟨x, y⟩

/-- The anchor weight `1 / (1 + abs(math.sin(angle - noise_angle)))` of
line 59. -/
noncomputable def anchorWeight (angle a : ℝ) : ℝ := 1 / (1 + |Real.sin (angle - a)|)

/-- The loop of `get_radius_offset` (lines 56-61) sums the weights over
`zip(angles, offsets)`. -/
noncomputable def capWeights (angles offsets : List ℝ) (angle : ℝ) : ℝ :=
  ((angles.zip offsets).map fun p => anchorWeight angle p.1).sum

/-- ... and the offset-weighted total over the same pairs. -/
noncomputable def capTotal (angles offsets : List ℝ) (angle : ℝ) : ℝ :=
  ((angles.zip offsets).map fun p => p.2 * anchorWeight angle p.1).sum

/-- `get_radius_offset` (lines 54-62): `total / weights if weights > 0 else 1`. -/
noncomputable def get_radius_offset (angles offsets : List ℝ) (angle : ℝ) : ℝ :=
  if 0 < capWeights angles offsets angle then
    capTotal angles offsets angle / capWeights angles offsets angle
  else 1

/-- The cell-inclusion test of line 70: `distance <= radius * radius_offset`. -/
def capIncluded (radius : ℝ) (angles offsets : List ℝ) (x z : ℤ) : Prop :=
  Real.sqrt ((x : ℝ) * x + (z : ℝ) * z) ≤
    radius * get_radius_offset angles offsets (pyAtan2 z x)

open scoped Classical in
/-- The body of the cell loop of `create_organic_platform_layer`
(lines 66-87): polar test, edge-band pattern, interior mix, one emitted block
per included cell. -/
noncomputable def capCell (cx cz : ℤ) (radius : ℝ) (angles offsets : List ℝ) (x z : ℤ)
    (acc : List (String × ℤ) × Rng) : List (String × ℤ) × Rng :=
  let bs := acc.1
  let r := acc.2
  let distance := Real.sqrt ((x : ℝ) * x + (z : ℝ) * z)
  let angle := pyAtan2 z x
  let radius_offset := get_radius_offset angles offsets angle
  if distance ≤ radius * radius_offset then
    let key := encodeKey (x + cx) 0 (z + cz)
    if radius - 2 ≤ distance ∧ distance ≤ radius * radius_offset then
      let noise := Real.sin (angle * 4) * 0.5 + Real.cos (distance * 0.8) * 0.5
      if 0 < noise then
        let u := rand r
        (bs ++ [(key, if u.1 < 0.7 then 37 else 4)], u.2)
      else
        (bs ++ [(key, 24)], r)
    else
      let u := rand r
      if u.1 < 0.9 then (bs ++ [(key, 24)], u.2)
      else
        let w := rand u.2
        (bs ++ [(key, if w.1 < 0.7 then 37 else 4)], w.2)
  else (bs, r)

/-- `create_organic_platform_layer` (lines 45-89): draw 8 anchor angles and 8
radial scales, then sweep the expanded bounding square.  The dict of emitted
blocks is the association list in emission order (each (x, z) yields at most
one key, and distinct cells yield distinct keys). -/
noncomputable def create_organic_platform_layer (center_x center_z : ℤ) (radius : ℝ)
    (r0 : Rng) : List (String × ℤ) × Rng :=
  let a := drawList 8 r0
  let o := drawList 8 a.2
  let m := pyInt (radius + 2)
  (intRange (-m) m).foldl
    (fun acc x => (intRange (-m) m).foldl
      (fun acc2 z => capCell center_x center_z radius a.1 o.1 x z acc2) acc)
    ([], o.2)

/-- `current_radius` of line 102: `max_radius * (1 - (y / depth) ** 0.7)` with
`max_radius = 15`. -/
noncomputable def currentRadius (depth y : ℤ) : ℝ :=
  15 * (1 - ((y : ℝ) / (depth : ℝ)) ^ (0.7 : ℝ))

open scoped Classical in
/-- The block-type assignment of lines 115-123: one draw, stone below 0.6,
otherwise a second draw choosing mossy cobblestone below 0.3, else
cobblestone. -/
noncomputable def hangEmit (cx cz y x z : ℤ) (bs : List (String × ℤ)) (r : Rng) :
    List (String × ℤ) × Rng :=
  let key := encodeKey (x + cx) (-y) (z + cz)
  let a := rand r
  if a.1 < 0.6 then (bs ++ [(key, 37)], a.2)
  else
    let b := rand a.2
    if b.1 < 0.3 then (bs ++ [(key, 24)], b.2)
    else (bs ++ [(key, 4)], b.2)

open scoped Classical in
/-- The body of the hanging-layer cell loop (lines 108-123): radius test, the
edge-band skip (a draw below 0.4 within two units of the rim, line 112), then
the block assignment.  Note the skip draw happens only when the distance test
`distance > current_radius - 2` already passed, as Python `and`
short-circuits. -/
noncomputable def hangCell (cx cz y : ℤ) (cr : ℝ) (x z : ℤ)
    (acc : List (String × ℤ) × Rng) : List (String × ℤ) × Rng :=
  let distance := Real.sqrt ((x : ℝ) * x + (z : ℝ) * z)
  if distance ≤ cr then
    if cr - 2 < distance then
      let u := rand acc.2
      if u.1 < 0.4 then (acc.1, u.2)
      else hangEmit cx cz y x z acc.1 u.2
    else hangEmit cx cz y x z acc.1 acc.2
  else acc

/-- One layer of the hanging cone (the body of `for y in range(1, depth)`,
lines 101-123): compute the layer radius, then sweep the bounding square of
the layer. -/
noncomputable def hangLayer (cx cz depth : ℤ) (acc : List (String × ℤ) × Rng) (y : ℤ) :
    List (String × ℤ) × Rng :=
  let cr := currentRadius depth y
  let m := pyInt cr
  (intRange (-m) m).foldl
    (fun acc2 x => (intRange (-m) m).foldl (fun acc3 z => hangCell cx cz y cr x z acc3) acc2)
    acc

/-- The hanging-layer loop of `generate_hanging_cone` (lines 101-123):
`for y in range(1, depth)`, shrinking radius per layer, blocks at world
y = -y. -/
noncomputable def hangingBlocks (cx cz depth : ℤ) (r : Rng) : List (String × ℤ) × Rng :=
  (intRange 1 (depth - 1)).foldl (hangLayer cx cz depth) ([], r)

/-- `generate_hanging_cone` (lines 91-125): the cap layer followed by the
hanging layers.  Cap keys (y = 0) and hanging keys (y < 0) never collide, and
hanging keys are pairwise distinct, so the dict union is the concatenation. -/
noncomputable def generate_hanging_cone (cx cz _start_y depth : ℤ) (r : Rng) :
    List (String × ℤ) × Rng :=
  let cap := create_organic_platform_layer cx cz 15 r
  let hang := hangingBlocks cx cz depth cap.2
  (cap.1 ++ hang.1, hang.2)

/-- The two-sequential-draw block-type scheme of lines 115-120: some position
i of the stream decides stone below 0.6, and the following draw decides mossy
cobblestone below 0.3 versus cobblestone. -/
def drawScheme (s : ℕ → ℝ) (b : ℤ) : Prop :=
  ∃ i, (s i < 0.6 ∧ b = 37) ∨
    (¬ s i < 0.6 ∧ s (i + 1) < 0.3 ∧ b = 24) ∨
    (¬ s i < 0.6 ∧ ¬ s (i + 1) < 0.3 ∧ b = 4)

/-- A concrete stream: eight zero angles, eight radial scales 1.15, then
draws of one half. -/
noncomputable def s0 : ℕ → ℝ := fun i => if i < 8 then 0 else if i < 16 then 1.15 else 1 / 2

/-- Random source starting `s0` at position 0. -/
noncomputable def rng0 : Rng := ⟨s0, 0⟩

/-- Random source all of whose draws are one half. -/
noncomputable def rng05 : Rng := ⟨fun _ => 1 / 2, 0⟩

/-- Random source all of whose draws are one. -/
noncomputable def rngOne : Rng := ⟨fun _ => 1, 0⟩

/-! ### Codec lemmas -/

theorem charDigit_digitChar : ∀ d : ℕ, d < 10 → charDigit (Nat.digitChar d) = some d := by
  decide

theorem digitChar_ne_comma : ∀ d : ℕ, d < 10 → Nat.digitChar d ≠ ',' := by decide

theorem digitChar_ne_dash : ∀ d : ℕ, d < 10 → Nat.digitChar d ≠ '-' := by decide

theorem parseNatAux_append (l1 l2 : List Char) (a : ℕ) :
    parseNatAux (l1 ++ l2) a =
      match parseNatAux l1 a with
      | some m => parseNatAux l2 m
      | none => none := by
  induction l1 generalizing a with
  | nil => simp [parseNatAux]
  | cons c cs ih =>
    simp only [List.cons_append, parseNatAux]
    cases charDigit c <;> simp [ih]

theorem natCharsAux_spec (fuel : ℕ) :
    ∀ n a : ℕ, n < fuel →
      parseNatAux (natCharsAux fuel n) a = some (a * 10 ^ (natCharsAux fuel n).length + n) := by
  induction fuel with
  | zero => intro n a h; omega
  | succ f ih =>
    intro n a h
    by_cases hn : n < 10
    · simp [natCharsAux, hn, parseNatAux, charDigit_digitChar n hn]
    · have hrec : n / 10 < f := by omega
      simp only [natCharsAux, hn, if_false]
      rw [parseNatAux_append, ih (n / 10) a hrec]
      simp only [parseNatAux, charDigit_digitChar (n % 10) (by omega), List.length_append,
        List.length_cons, List.length_nil, pow_succ]
      refine congrArg some ?_
      have hdm : n / 10 * 10 + n % 10 = n := by omega
      set L := (natCharsAux f (n / 10)).length with hL
      calc (a * 10 ^ L + n / 10) * 10 + n % 10
          = a * (10 ^ L * 10) + (n / 10 * 10 + n % 10) := by ring
        _ = a * (10 ^ L * 10) + n := by rw [hdm]

theorem natCharsAux_ne_nil (f n : ℕ) : natCharsAux (f + 1) n ≠ [] := by
  by_cases hn : n < 10 <;> simp [natCharsAux, hn]

theorem parseNat_natChars (n : ℕ) : parseNat (natChars n) = some n := by
  have h := natCharsAux_spec (n + 1) n 0 (by omega)
  have hne := natCharsAux_ne_nil n n
  unfold natChars at *
  cases hcs : natCharsAux (n + 1) n with
  | nil => exact absurd hcs hne
  | cons c cs =>
    rw [hcs] at h
    simpa [parseNat] using h

theorem natCharsAux_mem (f : ℕ) :
    ∀ n : ℕ, ∀ c ∈ natCharsAux f n, ∃ d, d < 10 ∧ c = Nat.digitChar d := by
  induction f with
  | zero => intro n c hc; simp [natCharsAux] at hc
  | succ f ih =>
    intro n c hc
    by_cases hn : n < 10
    · simp [natCharsAux, hn] at hc
      exact ⟨n, hn, hc⟩
    · simp only [natCharsAux, hn, if_false, List.mem_append, List.mem_singleton] at hc
      rcases hc with hc | hc
      · exact ih (n / 10) c hc
      · exact ⟨n % 10, by omega, hc⟩

theorem natChars_no_comma (n : ℕ) : ∀ c ∈ natChars n, c ≠ ',' := by
  intro c hc
  obtain ⟨d, hd, rfl⟩ := natCharsAux_mem (n + 1) n c hc
  exact digitChar_ne_comma d hd

theorem intChars_no_comma (i : ℤ) : ∀ c ∈ intChars i, c ≠ ',' := by
  intro c hc
  unfold intChars at hc
  by_cases hi : i < 0
  · simp only [hi, if_true, List.mem_cons] at hc
    rcases hc with rfl | hc
    · decide
    · exact natChars_no_comma _ c hc
  · simp only [hi, if_false] at hc
    exact natChars_no_comma _ c hc

theorem splitComma_same (a : List Char) (h : ∀ c ∈ a, c ≠ ',') : splitComma a = [a] := by
  induction a with
  | nil => rfl
  | cons c cs ih =>
    have hc : c ≠ ',' := h c (by simp)
    have : splitComma cs = [cs] := ih fun c hc => h c (by simp [hc])
    simp [splitComma, hc, this]

theorem splitComma_append (a rest : List Char) (h : ∀ c ∈ a, c ≠ ',') :
    splitComma (a ++ ',' :: rest) = a :: splitComma rest := by
  induction a with
  | nil => simp [splitComma]
  | cons c cs ih =>
    have hc : c ≠ ',' := h c (by simp)
    have := ih fun c hc => h c (by simp [hc])
    simp [splitComma, hc, this]

theorem parseInt_intChars (i : ℤ) : parseInt (intChars i) = some i := by
  by_cases hi : i < 0
  · rw [intChars, if_pos hi]
    simp only [parseInt, if_pos rfl, parseNat_natChars]
    refine congrArg some ?_
    omega
  · rw [intChars, if_neg hi]
    have hne := natCharsAux_ne_nil i.toNat i.toNat
    cases hcs : natChars i.toNat with
    | nil => exact absurd hcs hne
    | cons c cs =>
      have hmem : c ∈ natChars i.toNat := by rw [hcs]; simp
      obtain ⟨d, hd, rfl⟩ := natCharsAux_mem (i.toNat + 1) i.toNat _ hmem
      have hdash : Nat.digitChar d ≠ '-' := digitChar_ne_dash d hd
      have hp : parseNat (Nat.digitChar d :: cs) = some i.toNat := by
        rw [← hcs]; exact parseNat_natChars i.toNat
      simp only [parseInt, if_neg hdash, hp]
      refine congrArg some ?_
      omega

/-- Claim C4: for all integers x, y, z (including zero and negatives), decoding
the key produced by encoding (x, y, z) as the comma-joined string "x,y,z"
yields exactly (x, y, z): the codec round-trips on every coordinate. -/
theorem C4_codec_roundtrip (x y z : ℤ) : decodeKey (encodeKey x y z) = some (x, y, z) := by
  have hdata : (encodeKey x y z).data =
      intChars x ++ ',' :: (intChars y ++ ',' :: intChars z) := by
    simp [encodeKey]
  rw [decodeKey, hdata, splitComma_append _ _ (intChars_no_comma x),
    splitComma_append _ _ (intChars_no_comma y), splitComma_same _ (intChars_no_comma z)]
  simp [parseInt_intChars]


/-! ### Flood-fill and platform-detection lemmas -/

theorem flood_fill_cons (blocks : Grid) (f : ℕ) (visited q : List (ℤ × ℤ))
    (platform : List (ℤ × ℤ)) (c : ℤ × ℤ) (hc : c ∉ visited) :
    flood_fill blocks (f + 1) visited (c :: q) platform =
      flood_fill blocks f (visited ++ [c])
        (q ++ (get_neighbors c.1 c.2).filter (fun p =>
          decide (dictGet (encodeKey p.1 0 p.2) blocks = some 24 ∧ p ∉ visited ++ [c])))
        (platform ++ [c]) := by
  simp only [flood_fill, if_neg hc]

/-- Each `flood_fill` call grows `platform` and `visited` by one and the same
block of newly visited cells, none of which was visited before the call. -/
theorem flood_fill_delta (blocks : Grid) (fuel : ℕ) :
    ∀ visited queue platform : List (ℤ × ℤ),
      ∃ d, flood_fill blocks fuel visited queue platform = (platform ++ d, visited ++ d) ∧
        ∀ c ∈ d, c ∉ visited := by
  induction fuel with
  | zero =>
    intro visited queue platform
    exact ⟨[], by simp [flood_fill], by simp⟩
  | succ f ih =>
    intro visited queue platform
    cases queue with
    | nil => exact ⟨[], by simp [flood_fill], by simp⟩
    | cons c q =>
      by_cases hc : c ∈ visited
      · obtain ⟨d, h1, h2⟩ := ih visited q platform
        refine ⟨d, ?_, h2⟩
        simp only [flood_fill, if_pos hc]
        exact h1
      · obtain ⟨d, h1, h2⟩ :=
          ih (visited ++ [c])
            (q ++ (get_neighbors c.1 c.2).filter (fun p =>
              decide (dictGet (encodeKey p.1 0 p.2) blocks = some 24 ∧ p ∉ visited ++ [c])))
            (platform ++ [c])
        refine ⟨c :: d, ?_, ?_⟩
        · rw [flood_fill_cons blocks f visited q platform c hc, h1]
          simp
        · intro e he
          rcases List.mem_cons.1 he with rfl | he
          · exact hc
          · have := h2 e he
            simp only [List.mem_append, List.mem_singleton, not_or] at this
            exact this.1

/-- One `for coord in blocks` iteration preserves the detector invariants:
platforms are covered by the visited set, pairwise disjoint, and large. -/
theorem detectStep_inv (blocks : Grid) (acc : List (List (ℤ × ℤ)) × List (ℤ × ℤ))
    (e : String × ℤ)
    (h1 : ∀ p ∈ acc.1, ∀ c ∈ p, c ∈ acc.2)
    (h2 : acc.1.Pairwise fun p q => ∀ c ∈ p, c ∉ q)
    (h3 : ∀ p ∈ acc.1, p.length > 50) :
    (∀ p ∈ (detectStep blocks acc e).1, ∀ c ∈ p, c ∈ (detectStep blocks acc e).2) ∧
    ((detectStep blocks acc e).1.Pairwise fun p q => ∀ c ∈ p, c ∉ q) ∧
    (∀ p ∈ (detectStep blocks acc e).1, p.length > 50) := by
  by_cases h24 : e.2 ≠ 24
  · simp only [detectStep, if_pos h24]
    exact ⟨h1, h2, h3⟩
  · cases hdec : decodeKey e.1 with
    | none =>
      simp only [detectStep, if_neg h24, hdec]
      exact ⟨h1, h2, h3⟩
    | some t =>
      obtain ⟨x, y, z⟩ := t
      by_cases hv : (x, z) ∈ acc.2
      · simp only [detectStep, if_neg h24, hdec, if_pos hv]
        exact ⟨h1, h2, h3⟩
      · obtain ⟨d, hff, hd⟩ := flood_fill_delta blocks (floodFuel blocks) acc.2 [(x, z)] []
        simp only [detectStep, if_neg h24, hdec, if_neg hv, hff, List.nil_append]
        by_cases hlen : d.length > 50
        · simp only [if_pos hlen]
          refine ⟨?_, ?_, ?_⟩
          · intro p hp c hcp
            rcases List.mem_append.1 hp with hp | hp
            · exact List.mem_append.2 (Or.inl (h1 p hp c hcp))
            · rw [List.mem_singleton] at hp
              subst hp
              exact List.mem_append.2 (Or.inr hcp)
          · rw [List.pairwise_append]
            refine ⟨h2, by simp, ?_⟩
            intro p hp p2 hp2
            rw [List.mem_singleton] at hp2
            subst hp2
            intro c hcp
            exact fun hcd => hd c hcd (h1 p hp c hcp)
          · intro p hp
            rcases List.mem_append.1 hp with hp | hp
            · exact h3 p hp
            · rw [List.mem_singleton] at hp
              subst hp
              exact hlen
        · simp only [if_neg hlen]
          refine ⟨?_, h2, h3⟩
          intro p hp c hcp
          exact List.mem_append.2 (Or.inl (h1 p hp c hcp))

theorem find_platforms_foldl_inv (blocks : Grid) :
    ∀ (l : List (String × ℤ)) (acc : List (List (ℤ × ℤ)) × List (ℤ × ℤ)),
      (∀ p ∈ acc.1, ∀ c ∈ p, c ∈ acc.2) →
      (acc.1.Pairwise fun p q => ∀ c ∈ p, c ∉ q) →
      (∀ p ∈ acc.1, p.length > 50) →
      ((l.foldl (detectStep blocks) acc).1.Pairwise fun p q => ∀ c ∈ p, c ∉ q) ∧
      (∀ p ∈ (l.foldl (detectStep blocks) acc).1, p.length > 50) := by
  intro l
  induction l with
  | nil => intro acc h1 h2 h3; exact ⟨h2, h3⟩
  | cons e l ih =>
    intro acc h1 h2 h3
    obtain ⟨g1, g2, g3⟩ := detectStep_inv blocks acc e h1 h2 h3
    exact ih (detectStep blocks acc e) g1 g2 g3

/-- Claim C5: for every input grid, the platforms returned by the detector are
pairwise disjoint as sets of (x, z) pairs, and every returned platform has
size strictly greater than 50. -/
theorem C5_partition (blocks : Grid) :
    ((find_platforms blocks).Pairwise fun p q => ∀ c ∈ p, c ∉ q) ∧
    (∀ p ∈ find_platforms blocks, p.length > 50) := by
  unfold find_platforms
  exact find_platforms_foldl_inv blocks blocks ([], []) (by simp) (by simp) (by simp)

/-- Witness for C5 at a concrete grid. -/
theorem C5_partition_witness :
    ((find_platforms grid64).Pairwise fun p q => ∀ c ∈ p, c ∉ q) ∧
    (∀ p ∈ find_platforms grid64, p.length > 50) :=
  C5_partition grid64

set_option maxRecDepth 10000 in
/-- Claim C6: on a grid holding exactly one contiguous 8×8 square of block 24
at y = 0, the detector returns exactly one platform, of size 64. -/
theorem C6_single_platform : (find_platforms grid64).map List.length = [64] := by
  decide

set_option maxRecDepth 10000 in
/-- Claim C1 is violated by the code: on `grid65` — an 8×8 y=0 platform of
block 24 plus one block 24 at key "8,1,0" iterated first — the single returned
platform contains (8, 0) even though the grid has no entry at key "8,0,0", so
a platform member need be neither a y=0 target-block cell nor 4-connected to
the rest through y=0 target-block cells. -/
theorem C1_seed_outside_layer :
    (find_platforms grid65).map List.length = [65] ∧
    (∀ p ∈ find_platforms grid65, ((8 : ℤ), (0 : ℤ)) ∈ p) ∧
    dictGet (encodeKey 8 0 0) grid65 = none := by
  decide

/-! ### Merge and dict-update lemmas -/

theorem dictGet_append (k : String) (l1 l2 : Grid) :
    dictGet k (l1 ++ l2) =
      match dictGet k l1 with
      | some v => some v
      | none => dictGet k l2 := by
  induction l1 with
  | nil => simp [dictGet]
  | cons e es ih =>
    by_cases he : e.1 = k <;> simp [dictGet, he, ih]

/-- The merge loop looks a key up in the original grid first and otherwise in
the generated blocks: existing entries are never overwritten, and new entries
come only from the generated map. -/
theorem mergeBlocks_lookup (newBlocks : Grid) :
    ∀ (grid : Grid) (k : String),
      dictGet k (mergeBlocks grid newBlocks) =
        match dictGet k grid with
        | some v => some v
        | none => dictGet k newBlocks := by
  induction newBlocks with
  | nil =>
    intro grid k
    cases hg : dictGet k grid <;> simp [mergeBlocks, dictGet, hg]
  | cons e es ih =>
    intro grid k
    show dictGet k ((e :: es).foldl _ grid) = _
    rw [List.foldl_cons]
    by_cases hg : (dictGet e.1 grid).isSome
    · simp only [if_pos hg]
      rw [show es.foldl (fun acc e => if (dictGet e.1 acc).isSome then acc else acc ++ [e]) grid
          = mergeBlocks grid es from rfl, ih grid k]
      cases hgk : dictGet k grid with
      | some v => simp
      | none =>
        by_cases hek : e.1 = k
        · rw [hek, hgk] at hg
          simp at hg
        · simp [dictGet, hek]
    · simp only [if_neg hg]
      rw [show es.foldl (fun acc e => if (dictGet e.1 acc).isSome then acc else acc ++ [e])
          (grid ++ [e]) = mergeBlocks (grid ++ [e]) es from rfl, ih (grid ++ [e]) k]
      rw [dictGet_append]
      cases hgk : dictGet k grid with
      | some v => simp
      | none =>
        by_cases hek : e.1 = k <;> simp [dictGet, hek]

/-- Claim C3: after the orchestrator merges the generated cone blocks into the
input grid, every key present in the original grid still maps to its original
value, and a key absent from the original grid maps to its generated value —
the output grid is the input grid plus entries only at generated keys that were
absent from the input. -/
theorem C3_merge_preserves (grid newBlocks : Grid) (k : String) :
    (∀ v, dictGet k grid = some v → dictGet k (mergeBlocks grid newBlocks) = some v) ∧
    (dictGet k grid = none → dictGet k (mergeBlocks grid newBlocks) = dictGet k newBlocks) := by
  constructor
  · intro v hv
    rw [mergeBlocks_lookup newBlocks grid k, hv]
  · intro hv
    rw [mergeBlocks_lookup newBlocks grid k, hv]

/-- Witness for C3: the colliding key keeps its grid value 24, the fresh key
receives its generated value. -/
theorem C3_merge_preserves_witness :
    dictGet (encodeKey 0 0 0) gridW = some 24 ∧
    dictGet (encodeKey 0 0 0) (mergeBlocks gridW newW) = some 24 ∧
    dictGet (encodeKey 1 0 0) gridW = none ∧
    dictGet (encodeKey 1 0 0) (mergeBlocks gridW newW) = dictGet (encodeKey 1 0 0) newW :=
  ⟨by decide, (C3_merge_preserves gridW newW (encodeKey 0 0 0)).1 24 (by decide), by decide,
    (C3_merge_preserves gridW newW (encodeKey 1 0 0)).2 (by decide)⟩

theorem dictGet_map_overwrite (k k2 : String) (v : ℤ) :
    ∀ d : Grid, (dictGet k2 d).isSome → k = k2 →
      dictGet k (d.map fun e => if e.1 = k2 then (k2, v) else e) = some v := by
  intro d
  induction d with
  | nil => simp [dictGet]
  | cons e es ih =>
    intro h hk
    subst hk
    by_cases he : e.1 = k
    · simp [dictGet, he]
    · simp only [List.map_cons, if_neg he]
      rw [show dictGet k ((e :: List.map _ es) : Grid) = dictGet k (es.map fun e => if e.1 = k then (k, v) else e)
        from by simp [dictGet, he]]
      refine ih ?_ rfl
      simpa [dictGet, he] using h

theorem dictGet_map_overwrite_ne (k k2 : String) (v : ℤ) (hk : k ≠ k2) :
    ∀ d : Grid, dictGet k (d.map fun e => if e.1 = k2 then (k2, v) else e) = dictGet k d := by
  intro d
  induction d with
  | nil => simp [dictGet]
  | cons e es ih =>
    have hk2 : ¬ k2 = k := fun h => hk h.symm
    by_cases he : e.1 = k2
    · have hek : ¬ e.1 = k := by rw [he]; exact hk2
      simp [dictGet, he, hek, hk2, ih]
    · by_cases hek : e.1 = k <;> simp [dictGet, he, hek, hk, hk2, ih]

theorem dictGet_dictInsert_self (d : Grid) (k : String) (v : ℤ) :
    dictGet k (dictInsert d k v) = some v := by
  unfold dictInsert
  by_cases hd : (dictGet k d).isSome
  · rw [if_pos hd]
    exact dictGet_map_overwrite k k v d hd rfl
  · rw [if_neg hd, dictGet_append]
    rw [Option.not_isSome_iff_eq_none] at hd
    simp [hd, dictGet]

theorem dictGet_dictInsert_ne (d : Grid) (k k2 : String) (v : ℤ) (h : k ≠ k2) :
    dictGet k (dictInsert d k2 v) = dictGet k d := by
  unfold dictInsert
  by_cases hd : (dictGet k2 d).isSome
  · rw [if_pos hd]
    exact dictGet_map_overwrite_ne k k2 v h d
  · rw [if_neg hd, dictGet_append]
    have hk2 : ¬ k2 = k := fun h2 => h h2.symm
    cases hk : dictGet k d with
    | some v2 => simp
    | none => simp [dictGet, hk2]

theorem dictGet_dictUpdate_of_not_mem (k : String) :
    ∀ (n d : Grid), (∀ e ∈ n, e.1 ≠ k) → dictGet k (dictUpdate d n) = dictGet k d := by
  intro n
  induction n with
  | nil => intro d _; rfl
  | cons e es ih =>
    intro d h
    show dictGet k (dictUpdate (dictInsert d e.1 e.2) es) = _
    rw [ih (dictInsert d e.1 e.2) (fun e2 he2 => h e2 (by simp [he2])),
      dictGet_dictInsert_ne d k e.1 e.2 (fun hk => h e (by simp) hk.symm)]

/-- `dict.update` semantics on lookups: a key present in the update map (with
unique keys, as Python dicts have) ends up at the updated value. -/
theorem dictGet_dictUpdate_mem (k : String) (v : ℤ) :
    ∀ (n d : Grid), (n.map Prod.fst).Nodup → dictGet k n = some v →
      dictGet k (dictUpdate d n) = some v := by
  intro n
  induction n with
  | nil => intro d _ h; simp [dictGet] at h
  | cons e es ih =>
    intro d hnd h
    show dictGet k (dictUpdate (dictInsert d e.1 e.2) es) = some v
    rw [List.map_cons, List.nodup_cons] at hnd
    by_cases he : e.1 = k
    · have hv : e.2 = v := by
        rw [dictGet, if_pos he] at h
        exact Option.some.inj h
      have hes : ∀ e2 ∈ es, e2.1 ≠ k := by
        intro e2 he2 hk2
        exact hnd.1 (List.mem_map.2 ⟨e2, he2, by rw [hk2, he]⟩)
      rw [dictGet_dictUpdate_of_not_mem k es (dictInsert d e.1 e.2) hes, he, hv]
      exact dictGet_dictInsert_self d k v
    · have h' : dictGet k es = some v := by
        rw [dictGet, if_neg he] at h
        exact h
      exact ih (dictInsert d e.1 e.2) hnd.2 h'

/-- Claim C10: when cones generated for two platforms both write a block at the
same key, the accumulated generated-block map keeps the value written by the
later platform, and that later value is what the merge step installs in the
grid whenever the key was absent from the original grid. -/
theorem C10_last_writer_wins (g c1 c2 : Grid) (k : String) (v : ℤ)
    (hnd : (c2.map Prod.fst).Nodup) (h : dictGet k c2 = some v) :
    dictGet k (dictUpdate (dictUpdate [] c1) c2) = some v ∧
    (dictGet k g = none →
      dictGet k (mergeBlocks g (dictUpdate (dictUpdate [] c1) c2)) = some v) := by
  have h1 := dictGet_dictUpdate_mem k v c2 (dictUpdate [] c1) hnd h
  refine ⟨h1, fun hg => ?_⟩
  rw [mergeBlocks_lookup (dictUpdate (dictUpdate [] c1) c2) g k, hg, h1]

/-- Witness for C10 at concrete cone maps: the value 4 written by the second
platform survives accumulation and merge. -/
theorem C10_last_writer_wins_witness :
    (coneW2.map Prod.fst).Nodup ∧ dictGet (encodeKey 0 (-1) 0) coneW2 = some 4 ∧
    dictGet (encodeKey 0 (-1) 0) gridW2 = none ∧
    dictGet (encodeKey 0 (-1) 0) (dictUpdate (dictUpdate [] coneW1) coneW2) = some 4 ∧
    dictGet (encodeKey 0 (-1) 0) (mergeBlocks gridW2 (dictUpdate (dictUpdate [] coneW1) coneW2)) =
      some 4 :=
  ⟨by decide, by decide, by decide,
    (C10_last_writer_wins gridW2 coneW1 coneW2 (encodeKey 0 (-1) 0) 4 (by decide) (by decide)).1,
    (C10_last_writer_wins gridW2 coneW1 coneW2 (encodeKey 0 (-1) 0) 4 (by decide) (by decide)).2
      (by decide)⟩

/-! ### Cap-layer weight lemmas -/

theorem anchorWeight_pos (angle a : ℝ) : 0 < anchorWeight angle a := by
  unfold anchorWeight
  have h : (0 : ℝ) < 1 + |Real.sin (angle - a)| := by positivity
  positivity

theorem anchorWeight_ge_half (angle a : ℝ) : 1 / 2 ≤ anchorWeight angle a := by
  unfold anchorWeight
  have h1 : |Real.sin (angle - a)| ≤ 1 := Real.abs_sin_le_one _
  have h2 : (0 : ℝ) < 1 + |Real.sin (angle - a)| := by positivity
  rw [div_le_div_iff₀ (by norm_num) h2]
  linarith [abs_nonneg (Real.sin (angle - a))]

theorem capWeights_pos (angles offsets : List ℝ) (angle : ℝ)
    (h : angles.zip offsets ≠ []) : 0 < capWeights angles offsets angle := by
  unfold capWeights
  apply List.sum_pos
  · intro x hx
    obtain ⟨p, _, rfl⟩ := List.mem_map.1 hx
    exact anchorWeight_pos angle p.1
  · simpa using h

theorem get_radius_offset_pos_branch (angles offsets : List ℝ) (angle : ℝ)
    (h : angles.zip offsets ≠ []) :
    get_radius_offset angles offsets angle =
      capTotal angles offsets angle / capWeights angles offsets angle := by
  unfold get_radius_offset
  rw [if_pos (capWeights_pos angles offsets angle h)]

/-- Claim C9: in the per-angle radius multiplier every anchor weight
1 / (1 + |sin(angle - anchor)|) is at least 0.5, hence the weight sum over the
anchors is strictly positive and the fallback branch returning 1 when the
weight sum is not positive is unreachable. -/
theorem C9_weights (angle : ℝ) (angles offsets : List ℝ) (h : angles.zip offsets ≠ []) :
    (∀ a ∈ angles, 1 / 2 ≤ anchorWeight angle a) ∧
    0 < capWeights angles offsets angle ∧
    get_radius_offset angles offsets angle =
      capTotal angles offsets angle / capWeights angles offsets angle :=
  ⟨fun a _ => anchorWeight_ge_half angle a, capWeights_pos angles offsets angle h,
    get_radius_offset_pos_branch angles offsets angle h⟩

/-- Witness for C9 at a one-anchor configuration. -/
theorem C9_weights_witness :
    ([(0 : ℝ)].zip [(1 : ℝ)] ≠ []) ∧
    ((∀ a ∈ [(0 : ℝ)], 1 / 2 ≤ anchorWeight 0 a) ∧
      0 < capWeights [0] [1] 0 ∧
      get_radius_offset [0] [1] 0 = capTotal [0] [1] 0 / capWeights [0] [1] 0) :=
  ⟨by simp, C9_weights 0 [0] [1] (by simp)⟩

/-- The radius multiplier never exceeds the largest radial scale drawn: it is
a weighted average of the offsets with positive weights. -/
theorem get_radius_offset_le (angles offsets : List ℝ) (angle : ℝ) (c : ℝ)
    (hc : 1 ≤ c) (h : ∀ o ∈ offsets, o ≤ c) :
    get_radius_offset angles offsets angle ≤ c := by
  unfold get_radius_offset
  by_cases hw : 0 < capWeights angles offsets angle
  · rw [if_pos hw, div_le_iff₀ hw]
    unfold capTotal
    calc ((angles.zip offsets).map fun p => p.2 * anchorWeight angle p.1).sum
        ≤ ((angles.zip offsets).map fun p => c * anchorWeight angle p.1).sum := by
          apply List.sum_le_sum
          intro p hp
          exact mul_le_mul_of_nonneg_right (h p.2 (List.of_mem_zip hp).2)
            (le_of_lt (anchorWeight_pos angle p.1))
      _ = c * capWeights angles offsets angle :=
          List.sum_map_mul_left (angles.zip offsets) (fun p => anchorWeight angle p.1) c
  · rw [if_neg hw]
    exact hc

/-- With all radial scales equal, the radius multiplier is that common scale. -/
theorem get_radius_offset_replicate (n : ℕ) (hn : 0 < n) (a c θ : ℝ) :
    get_radius_offset (List.replicate n a) (List.replicate n c) θ = c := by
  have hw := anchorWeight_pos θ a
  have hn' : ((n : ℝ)) ≠ 0 := by positivity
  unfold get_radius_offset capTotal capWeights
  rw [List.zip_replicate']
  rw [show (List.replicate n (a, c)).map (fun p => anchorWeight θ p.1) =
    List.replicate n (anchorWeight θ a) from by simp]
  rw [show (List.replicate n (a, c)).map (fun p => p.2 * anchorWeight θ p.1) =
    List.replicate n (c * anchorWeight θ a) from by simp]
  rw [List.sum_replicate, List.sum_replicate, nsmul_eq_mul, nsmul_eq_mul]
  have hpos : (0 : ℝ) < (n : ℝ) * anchorWeight θ a := by positivity
  rw [if_pos hpos]
  field_simp
  ring

/-! ### Cap-layer emission lemmas -/

open scoped Classical

theorem capCell_fst (cx cz : ℤ) (radius : ℝ) (angles offsets : List ℝ) (x z : ℤ)
    (acc : List (String × ℤ) × Rng) :
    (capCell cx cz radius angles offsets x z acc).1.map Prod.fst =
      acc.1.map Prod.fst ++
        (if capIncluded radius angles offsets x z then [encodeKey (x + cx) 0 (z + cz)]
         else []) := by
  by_cases hinc : capIncluded radius angles offsets x z
  · rw [if_pos hinc]
    unfold capIncluded at hinc
    simp only [capCell, if_pos hinc]
    split_ifs <;> simp
  · rw [if_neg hinc]
    unfold capIncluded at hinc
    simp only [capCell, if_neg hinc]
    simp

theorem capFoldZ_mem (cx cz : ℤ) (radius : ℝ) (angles offsets : List ℝ) (x : ℤ) :
    ∀ (zs : List ℤ) (acc : List (String × ℤ) × Rng) (k : String),
      k ∈ (zs.foldl (fun a z => capCell cx cz radius angles offsets x z a) acc).1.map Prod.fst ↔
        (k ∈ acc.1.map Prod.fst ∨
          ∃ z ∈ zs, capIncluded radius angles offsets x z ∧ k = encodeKey (x + cx) 0 (z + cz)) := by
  intro zs
  induction zs with
  | nil => intro acc k; simp
  | cons z zs ih =>
    intro acc k
    rw [List.foldl_cons, ih]
    constructor
    · rintro (hk | ⟨z2, hz2, hi, hk⟩)
      · rw [capCell_fst] at hk
        rcases List.mem_append.1 hk with hk | hk
        · exact Or.inl hk
        · by_cases hinc : capIncluded radius angles offsets x z
          · rw [if_pos hinc, List.mem_singleton] at hk
            exact Or.inr ⟨z, by simp, hinc, hk⟩
          · rw [if_neg hinc] at hk
            simp at hk
      · exact Or.inr ⟨z2, by simp [hz2], hi, hk⟩
    · rintro (hk | ⟨z2, hz2, hi, hk⟩)
      · left
        rw [capCell_fst]
        exact List.mem_append.2 (Or.inl hk)
      · rcases List.mem_cons.1 hz2 with rfl | hz2
        · left
          rw [capCell_fst]
          refine List.mem_append.2 (Or.inr ?_)
          rw [if_pos hi, List.mem_singleton]
          exact hk
        · exact Or.inr ⟨z2, hz2, hi, hk⟩

theorem capFoldX_mem (cx cz : ℤ) (radius : ℝ) (angles offsets : List ℝ) (zs : List ℤ) :
    ∀ (xs : List ℤ) (acc : List (String × ℤ) × Rng) (k : String),
      k ∈ (xs.foldl
        (fun a x => zs.foldl (fun a2 z => capCell cx cz radius angles offsets x z a2) a)
        acc).1.map Prod.fst ↔
        (k ∈ acc.1.map Prod.fst ∨
          ∃ x ∈ xs, ∃ z ∈ zs, capIncluded radius angles offsets x z ∧
            k = encodeKey (x + cx) 0 (z + cz)) := by
  intro xs
  induction xs with
  | nil => intro acc k; simp
  | cons x xs ih =>
    intro acc k
    rw [List.foldl_cons, ih]
    rw [capFoldZ_mem]
    constructor
    · rintro ((hk | ⟨z, hz, hi, hk⟩) | ⟨x2, hx2, z, hz, hi, hk⟩)
      · exact Or.inl hk
      · exact Or.inr ⟨x, by simp, z, hz, hi, hk⟩
      · exact Or.inr ⟨x2, by simp [hx2], z, hz, hi, hk⟩
    · rintro (hk | ⟨x2, hx2, z, hz, hi, hk⟩)
      · exact Or.inl (Or.inl hk)
      · rcases List.mem_cons.1 hx2 with rfl | hx2
        · exact Or.inl (Or.inr ⟨z, hz, hi, hk⟩)
        · exact Or.inr ⟨x2, hx2, z, hz, hi, hk⟩

theorem mem_intRange (a lo hi : ℤ) : a ∈ intRange lo hi ↔ lo ≤ a ∧ a ≤ hi := by
  unfold intRange
  simp only [List.mem_map, List.mem_range]
  constructor
  · rintro ⟨i, hi2, rfl⟩
    rw [Int.lt_toNat] at hi2
    omega
  · rintro ⟨h1, h2⟩
    refine ⟨(a - lo).toNat, ?_, ?_⟩
    · rw [Int.lt_toNat, Int.toNat_of_nonneg (by omega)]
      omega
    · rw [Int.toNat_of_nonneg (by omega)]
      omega

/-- The keys emitted by the cap layer are exactly the included cells of the
bounding square, shifted to the center. -/
theorem cap_mem (cx cz : ℤ) (radius : ℝ) (r0 : Rng) (k : String) :
    k ∈ (create_organic_platform_layer cx cz radius r0).1.map Prod.fst ↔
      ∃ x ∈ intRange (-pyInt (radius + 2)) (pyInt (radius + 2)),
        ∃ z ∈ intRange (-pyInt (radius + 2)) (pyInt (radius + 2)),
          capIncluded radius (drawList 8 r0).1 (drawList 8 (drawList 8 r0).2).1 x z ∧
          k = encodeKey (x + cx) 0 (z + cz) := by
  unfold create_organic_platform_layer
  rw [capFoldX_mem]
  simp

theorem drawList_spec (n : ℕ) :
    ∀ r : Rng, (drawList n r).1 = (List.range n).map (fun j => r.stream (r.idx + j)) ∧
      (drawList n r).2 = Rng.mk r.stream (r.idx + n) := by
  induction n with
  | zero =>
    intro r
    exact ⟨by simp [drawList], by simp [drawList]⟩
  | succ n ih =>
    intro r
    obtain ⟨h1, h2⟩ := ih ⟨r.stream, r.idx + 1⟩
    constructor
    · show r.stream r.idx :: (drawList n ⟨r.stream, r.idx + 1⟩).1 = _
      rw [h1, List.range_succ_eq_map]
      simp only [List.map_cons, List.map_map, Nat.add_zero, Function.comp]
      congr 1
      apply List.map_congr_left
      intro j _
      congr 1
      omega
    · show (drawList n ⟨r.stream, r.idx + 1⟩).2 = _
      rw [h2]
      congr 1
      show r.idx + 1 + n = r.idx + (n + 1)
      omega

theorem drawList8_rng0_fst : (drawList 8 rng0).1 = List.replicate 8 0 := by
  rw [(drawList_spec 8 rng0).1]
  rw [show List.range 8 = [0, 1, 2, 3, 4, 5, 6, 7] from rfl]
  norm_num [rng0, s0, List.replicate]

theorem drawList8_rng0_offsets : (drawList 8 (drawList 8 rng0).2).1 = List.replicate 8 1.15 := by
  rw [(drawList_spec 8 (drawList 8 rng0).2).1, (drawList_spec 8 rng0).2]
  rw [show List.range 8 = [0, 1, 2, 3, 4, 5, 6, 7] from rfl]
  norm_num [rng0, s0, List.replicate]

theorem pyInt_of_seventeen : pyInt ((15 : ℝ) + 2) = 17 := by
  unfold pyInt
  rw [if_pos (by norm_num)]
  rw [show ((15 : ℝ) + 2) = ((17 : ℤ) : ℝ) by norm_num, Int.floor_intCast]

theorem capIncluded_cell : capIncluded 15 (List.replicate 8 0) (List.replicate 8 1.15) 14 10 := by
  unfold capIncluded
  have h14 : (((14 : ℤ) : ℝ)) = (14 : ℝ) := by norm_num
  have h10 : (((10 : ℤ) : ℝ)) = (10 : ℝ) := by norm_num
  rw [h14, h10]
  rw [get_radius_offset_replicate 8 (by norm_num) 0 1.15 (pyAtan2 10 14)]
  rw [show (14 : ℝ) * 14 + 10 * 10 = 296 by norm_num]
  calc Real.sqrt 296 ≤ Real.sqrt (17.25 ^ 2) := Real.sqrt_le_sqrt (by norm_num)
    _ = 17.25 := Real.sqrt_sq (by norm_num)
    _ ≤ 15 * 1.15 := by norm_num

/-- Claim C2 as stated is false at a concrete input: with the 8 anchor angles
drawn as 0, the 8 radial scales drawn as 1.15 (strictly inside the
uniform(0.8, 1.2) range) and all later draws one half, the cap layer around
center (0, 0) emits the cell (14, 10), whose Euclidean distance from the
center, √296 ≈ 17.20, exceeds R + 2 = 17. -/
theorem C2_containment_counterexample :
    encodeKey 14 0 10 ∈ (create_organic_platform_layer 0 0 15 rng0).1.map Prod.fst ∧
    15 + 2 < Real.sqrt (((14 : ℤ) : ℝ) * ((14 : ℤ) : ℝ) + ((10 : ℤ) : ℝ) * ((10 : ℤ) : ℝ)) ∧
    (∀ i, i < 8 → rng0.stream i = 0) ∧
    (∀ i, 8 ≤ i → i < 16 → 0.8 ≤ rng0.stream i ∧ rng0.stream i ≤ 1.2) ∧
    (∀ i, 16 ≤ i → 0 ≤ rng0.stream i ∧ rng0.stream i < 1) := by
  refine ⟨?_, ?_, ?_, ?_, ?_⟩
  · rw [cap_mem, pyInt_of_seventeen]
    refine ⟨14, ?_, 10, ?_, ?_, ?_⟩
    · rw [mem_intRange]; omega
    · rw [mem_intRange]; omega
    · rw [drawList8_rng0_fst, drawList8_rng0_offsets]
      exact capIncluded_cell
    · norm_num
  · rw [show ((14 : ℤ) : ℝ) * ((14 : ℤ) : ℝ) + ((10 : ℤ) : ℝ) * ((10 : ℤ) : ℝ) = 296 by norm_num]
    have h : Real.sqrt (17 ^ 2) < Real.sqrt 296 := Real.sqrt_lt_sqrt (by norm_num) (by norm_num)
    rw [Real.sqrt_sq (by norm_num)] at h
    linarith
  · intro i hi
    simp [rng0, s0, hi]
  · intro i h1 h2
    have h8 : ¬ i < 8 := by omega
    have hv : rng0.stream i = 1.15 := by simp [rng0, s0, h8, h2]
    rw [hv]
    norm_num
  · intro i h1
    have h2 : ¬ i < 8 := by omega
    have h3 : ¬ i < 16 := by omega
    have hv : rng0.stream i = 1 / 2 := by simp [rng0, s0, h2, h3]
    rw [hv]
    norm_num

/-- Claim C2 amended: every cap-layer cell lies within Euclidean distance
R·1.2 = 18 of the platform center, provided each of the 8 radial-scale draws
is at most 1.2 (the upper end of the uniform(0.8, 1.2) range they are drawn
from). -/
theorem C2_containment_amended (cx cz : ℤ) (r0 : Rng)
    (hoff : ∀ i, r0.idx + 8 ≤ i → i < r0.idx + 16 → r0.stream i ≤ 1.2) :
    ∀ k ∈ (create_organic_platform_layer cx cz 15 r0).1.map Prod.fst,
      ∃ X Z : ℤ, k = encodeKey X 0 Z ∧
        Real.sqrt (((X : ℝ) - (cx : ℝ)) ^ 2 + ((Z : ℝ) - (cz : ℝ)) ^ 2) ≤ 15 * 1.2 := by
  intro k hk
  rw [cap_mem] at hk
  obtain ⟨x, _, z, _, hinc, rfl⟩ := hk
  refine ⟨x + cx, z + cz, rfl, ?_⟩
  have hofflist : ∀ o ∈ (drawList 8 (drawList 8 r0).2).1, o ≤ 1.2 := by
    rw [(drawList_spec 8 (drawList 8 r0).2).1, (drawList_spec 8 r0).2]
    dsimp only
    intro o ho
    obtain ⟨j, hj, rfl⟩ := List.mem_map.1 ho
    rw [List.mem_range] at hj
    exact hoff _ (by omega) (by omega)
  have hmult := get_radius_offset_le (drawList 8 r0).1 (drawList 8 (drawList 8 r0).2).1
    (pyAtan2 z x) 1.2 (by norm_num) hofflist
  unfold capIncluded at hinc
  have heq : (((x + cx : ℤ) : ℝ) - (cx : ℝ)) ^ 2 + (((z + cz : ℤ) : ℝ) - (cz : ℝ)) ^ 2 =
      ((x : ℤ) : ℝ) * ((x : ℤ) : ℝ) + ((z : ℤ) : ℝ) * ((z : ℤ) : ℝ) := by
    push_cast
    ring
  rw [heq]
  calc Real.sqrt (((x : ℤ) : ℝ) * ((x : ℤ) : ℝ) + ((z : ℤ) : ℝ) * ((z : ℤ) : ℝ))
      ≤ 15 * get_radius_offset (drawList 8 r0).1 (drawList 8 (drawList 8 r0).2).1 (pyAtan2 z x) :=
        hinc
    _ ≤ 15 * 1.2 := by linarith

/-- Witness for the amended C2 at the all-ones stream. -/
theorem C2_containment_amended_witness :
    (∀ i, rngOne.idx + 8 ≤ i → i < rngOne.idx + 16 → rngOne.stream i ≤ 1.2) ∧
    (∀ k ∈ (create_organic_platform_layer 0 0 15 rngOne).1.map Prod.fst,
      ∃ X Z : ℤ, k = encodeKey X 0 Z ∧
        Real.sqrt (((X : ℝ) - ((0 : ℤ) : ℝ)) ^ 2 + ((Z : ℝ) - ((0 : ℤ) : ℝ)) ^ 2) ≤ 15 * 1.2) :=
  ⟨fun i _ _ => by norm_num [rngOne],
    C2_containment_amended 0 0 rngOne (fun i _ _ => by norm_num [rngOne])⟩

/-! ### Hanging-cone emission lemmas -/

theorem hangEmit_cases (cx cz y x z : ℤ) (bs : List (String × ℤ)) (r : Rng) :
    (hangEmit cx cz y x z bs r).2.stream = r.stream ∧
    ∃ b : ℤ, (hangEmit cx cz y x z bs r).1 = bs ++ [(encodeKey (x + cx) (-y) (z + cz), b)] ∧
      ((r.stream r.idx < 0.6 ∧ b = 37) ∨
       (¬ r.stream r.idx < 0.6 ∧ r.stream (r.idx + 1) < 0.3 ∧ b = 24) ∨
       (¬ r.stream r.idx < 0.6 ∧ ¬ r.stream (r.idx + 1) < 0.3 ∧ b = 4)) := by
  unfold hangEmit rand
  dsimp only
  split_ifs with h1 h2
  · exact ⟨rfl, 37, rfl, Or.inl ⟨h1, rfl⟩⟩
  · exact ⟨rfl, 24, rfl, Or.inr (Or.inl ⟨h1, h2, rfl⟩)⟩
  · exact ⟨rfl, 4, rfl, Or.inr (Or.inr ⟨h1, h2, rfl⟩)⟩

theorem hangCell_stream (cx cz y : ℤ) (cr : ℝ) (x z : ℤ) (acc : List (String × ℤ) × Rng) :
    (hangCell cx cz y cr x z acc).2.stream = acc.2.stream := by
  unfold hangCell
  dsimp only
  split_ifs
  · rfl
  · exact (hangEmit_cases cx cz y x z acc.1 (rand acc.2).2).1
  · exact (hangEmit_cases cx cz y x z acc.1 acc.2).1
  · rfl

theorem hangCell_mono (cx cz y : ℤ) (cr : ℝ) (x z : ℤ) (acc : List (String × ℤ) × Rng)
    (e : String × ℤ) (he : e ∈ acc.1) : e ∈ (hangCell cx cz y cr x z acc).1 := by
  unfold hangCell
  dsimp only
  split_ifs
  · exact he
  · obtain ⟨_, b, hb, _⟩ := hangEmit_cases cx cz y x z acc.1 (rand acc.2).2
    rw [hb]
    exact List.mem_append.2 (Or.inl he)
  · obtain ⟨_, b, hb, _⟩ := hangEmit_cases cx cz y x z acc.1 acc.2
    rw [hb]
    exact List.mem_append.2 (Or.inl he)
  · exact he

theorem hangCell_new (cx cz y : ℤ) (cr : ℝ) (x z : ℤ) (acc : List (String × ℤ) × Rng)
    (s : ℕ → ℝ) (hs : acc.2.stream = s) (e : String × ℤ)
    (he : e ∈ (hangCell cx cz y cr x z acc).1) :
    e ∈ acc.1 ∨ (e.1 = encodeKey (x + cx) (-y) (z + cz) ∧ drawScheme s e.2) := by
  unfold hangCell at he
  dsimp only at he
  split_ifs at he
  · exact Or.inl he
  · obtain ⟨_, b, hb, hsc⟩ := hangEmit_cases cx cz y x z acc.1 (rand acc.2).2
    rw [hb] at he
    rcases List.mem_append.1 he with he | he
    · exact Or.inl he
    · rw [List.mem_singleton] at he
      subst he
      refine Or.inr ⟨rfl, ⟨(rand acc.2).2.idx, ?_⟩⟩
      rw [show (rand acc.2).2.stream = s from hs ▸ rfl] at hsc
      exact hsc
  · obtain ⟨_, b, hb, hsc⟩ := hangEmit_cases cx cz y x z acc.1 acc.2
    rw [hb] at he
    rcases List.mem_append.1 he with he | he
    · exact Or.inl he
    · rw [List.mem_singleton] at he
      subst he
      refine Or.inr ⟨rfl, ⟨acc.2.idx, ?_⟩⟩
      rw [hs] at hsc
      exact hsc
  · exact Or.inl he

theorem hangCell_emits (cx cz y : ℤ) (cr : ℝ) (x z : ℤ) (acc : List (String × ℤ) × Rng)
    (hd : Real.sqrt ((x : ℝ) * x + (z : ℝ) * z) ≤ cr)
    (hskip : ¬ acc.2.stream acc.2.idx < 0.4) :
    ∃ b : ℤ, (encodeKey (x + cx) (-y) (z + cz), b) ∈ (hangCell cx cz y cr x z acc).1 := by
  unfold hangCell
  dsimp only
  rw [if_pos hd]
  by_cases hedge : cr - 2 < Real.sqrt ((x : ℝ) * x + (z : ℝ) * z)
  · rw [if_pos hedge]
    rw [show (rand acc.2).1 = acc.2.stream acc.2.idx from rfl, if_neg hskip]
    obtain ⟨_, b, hb, _⟩ := hangEmit_cases cx cz y x z acc.1 (rand acc.2).2
    exact ⟨b, by rw [hb]; simp⟩
  · rw [if_neg hedge]
    obtain ⟨_, b, hb, _⟩ := hangEmit_cases cx cz y x z acc.1 acc.2
    exact ⟨b, by rw [hb]; simp⟩

/-! ### Fold-level lemmas for the hanging layers -/

theorem hangFoldZ_stream (cx cz y : ℤ) (cr : ℝ) (x : ℤ) :
    ∀ (zs : List ℤ) (acc : List (String × ℤ) × Rng),
      (zs.foldl (fun a z => hangCell cx cz y cr x z a) acc).2.stream = acc.2.stream := by
  intro zs
  induction zs with
  | nil => intro acc; rfl
  | cons z zs ih =>
    intro acc
    rw [List.foldl_cons, ih, hangCell_stream]

theorem hangFoldZ_mono (cx cz y : ℤ) (cr : ℝ) (x : ℤ) :
    ∀ (zs : List ℤ) (acc : List (String × ℤ) × Rng) (e : String × ℤ), e ∈ acc.1 →
      e ∈ (zs.foldl (fun a z => hangCell cx cz y cr x z a) acc).1 := by
  intro zs
  induction zs with
  | nil => intro acc e he; exact he
  | cons z zs ih =>
    intro acc e he
    rw [List.foldl_cons]
    exact ih _ e (hangCell_mono cx cz y cr x z acc e he)

theorem hangFoldZ_new (cx cz y : ℤ) (cr : ℝ) (x : ℤ) (s : ℕ → ℝ) :
    ∀ (zs : List ℤ) (acc : List (String × ℤ) × Rng), acc.2.stream = s →
      ∀ e ∈ (zs.foldl (fun a z => hangCell cx cz y cr x z a) acc).1,
        e ∈ acc.1 ∨ ∃ z : ℤ, e.1 = encodeKey (x + cx) (-y) (z + cz) ∧ drawScheme s e.2 := by
  intro zs
  induction zs with
  | nil => intro acc _ e he; exact Or.inl he
  | cons z zs ih =>
    intro acc hs e he
    rw [List.foldl_cons] at he
    rcases ih _ (by rw [hangCell_stream]; exact hs) e he with he2 | he2
    · rcases hangCell_new cx cz y cr x z acc s hs e he2 with he3 | he3
      · exact Or.inl he3
      · exact Or.inr ⟨z, he3⟩
    · exact Or.inr he2

theorem hangFoldX_stream (cx cz y : ℤ) (cr : ℝ) (zs : List ℤ) :
    ∀ (xs : List ℤ) (acc : List (String × ℤ) × Rng),
      (xs.foldl (fun a x => zs.foldl (fun a2 z => hangCell cx cz y cr x z a2) a) acc).2.stream =
        acc.2.stream := by
  intro xs
  induction xs with
  | nil => intro acc; rfl
  | cons x xs ih =>
    intro acc
    rw [List.foldl_cons, ih, hangFoldZ_stream]

theorem hangFoldX_mono (cx cz y : ℤ) (cr : ℝ) (zs : List ℤ) :
    ∀ (xs : List ℤ) (acc : List (String × ℤ) × Rng) (e : String × ℤ), e ∈ acc.1 →
      e ∈ (xs.foldl (fun a x => zs.foldl (fun a2 z => hangCell cx cz y cr x z a2) a) acc).1 := by
  intro xs
  induction xs with
  | nil => intro acc e he; exact he
  | cons x xs ih =>
    intro acc e he
    rw [List.foldl_cons]
    exact ih _ e (hangFoldZ_mono cx cz y cr x zs acc e he)

theorem hangFoldX_new (cx cz y : ℤ) (cr : ℝ) (zs : List ℤ) (s : ℕ → ℝ) :
    ∀ (xs : List ℤ) (acc : List (String × ℤ) × Rng), acc.2.stream = s →
      ∀ e ∈ (xs.foldl (fun a x => zs.foldl (fun a2 z => hangCell cx cz y cr x z a2) a) acc).1,
        e ∈ acc.1 ∨ ∃ x z : ℤ, e.1 = encodeKey (x + cx) (-y) (z + cz) ∧ drawScheme s e.2 := by
  intro xs
  induction xs with
  | nil => intro acc _ e he; exact Or.inl he
  | cons x xs ih =>
    intro acc hs e he
    rw [List.foldl_cons] at he
    rcases ih _ (by rw [hangFoldZ_stream]; exact hs) e he with he2 | he2
    · rcases hangFoldZ_new cx cz y cr x s zs acc hs e he2 with he3 | ⟨z, he3⟩
      · exact Or.inl he3
      · exact Or.inr ⟨x, z, he3⟩
    · exact Or.inr he2

theorem hangLayer_stream (cx cz depth : ℤ) (acc : List (String × ℤ) × Rng) (y : ℤ) :
    (hangLayer cx cz depth acc y).2.stream = acc.2.stream := by
  unfold hangLayer
  exact hangFoldX_stream cx cz y (currentRadius depth y) _ _ acc

theorem hangLayer_mono (cx cz depth : ℤ) (acc : List (String × ℤ) × Rng) (y : ℤ)
    (e : String × ℤ) (he : e ∈ acc.1) : e ∈ (hangLayer cx cz depth acc y).1 := by
  unfold hangLayer
  exact hangFoldX_mono cx cz y (currentRadius depth y) _ _ acc e he

theorem hangLayer_new (cx cz depth : ℤ) (acc : List (String × ℤ) × Rng) (y : ℤ)
    (s : ℕ → ℝ) (hs : acc.2.stream = s) (e : String × ℤ)
    (he : e ∈ (hangLayer cx cz depth acc y).1) :
    e ∈ acc.1 ∨ ∃ x z : ℤ, e.1 = encodeKey (x + cx) (-y) (z + cz) ∧ drawScheme s e.2 := by
  unfold hangLayer at he
  exact hangFoldX_new cx cz y (currentRadius depth y) _ s _ acc hs e he

theorem hangFoldY_stream (cx cz depth : ℤ) :
    ∀ (ys : List ℤ) (acc : List (String × ℤ) × Rng),
      (ys.foldl (hangLayer cx cz depth) acc).2.stream = acc.2.stream := by
  intro ys
  induction ys with
  | nil => intro acc; rfl
  | cons y ys ih =>
    intro acc
    rw [List.foldl_cons, ih, hangLayer_stream]

theorem hangFoldY_mono (cx cz depth : ℤ) :
    ∀ (ys : List ℤ) (acc : List (String × ℤ) × Rng) (e : String × ℤ), e ∈ acc.1 →
      e ∈ (ys.foldl (hangLayer cx cz depth) acc).1 := by
  intro ys
  induction ys with
  | nil => intro acc e he; exact he
  | cons y ys ih =>
    intro acc e he
    rw [List.foldl_cons]
    exact ih _ e (hangLayer_mono cx cz depth acc y e he)

theorem hangFoldY_new (cx cz depth : ℤ) (s : ℕ → ℝ) :
    ∀ (ys : List ℤ) (acc : List (String × ℤ) × Rng), acc.2.stream = s →
      ∀ e ∈ (ys.foldl (hangLayer cx cz depth) acc).1,
        e ∈ acc.1 ∨ ∃ y ∈ ys, ∃ x z : ℤ,
          e.1 = encodeKey (x + cx) (-y) (z + cz) ∧ drawScheme s e.2 := by
  intro ys
  induction ys with
  | nil => intro acc _ e he; exact Or.inl he
  | cons y ys ih =>
    intro acc hs e he
    rw [List.foldl_cons] at he
    rcases ih _ (by rw [hangLayer_stream]; exact hs) e he with he2 | ⟨y2, hy2, he2⟩
    · rcases hangLayer_new cx cz depth acc y s hs e he2 with he3 | ⟨x, z, he3⟩
      · exact Or.inl he3
      · exact Or.inr ⟨y, by simp, x, z, he3⟩
    · exact Or.inr ⟨y2, by simp [hy2], he2⟩

/-- Every entry emitted by the hanging layers carries the key of some cell of
some layer y in 1..depth-1, and its block id was decided by the
two-sequential-draw scheme on the random stream. -/
theorem hangingBlocks_new (cx cz depth : ℤ) (r : Rng) (e : String × ℤ)
    (he : e ∈ (hangingBlocks cx cz depth r).1) :
    ∃ y ∈ intRange 1 (depth - 1), ∃ x z : ℤ,
      e.1 = encodeKey (x + cx) (-y) (z + cz) ∧ drawScheme r.stream e.2 := by
  unfold hangingBlocks at he
  rcases hangFoldY_new cx cz depth r.stream (intRange 1 (depth - 1)) ([], r) rfl e he with
    he2 | he2
  · simp at he2
  · exact he2

/-- Claim C7: in every hanging layer, the block type of every emitted cell is
chosen by two sequential random draws r1 then r2 at consecutive stream
positions: stone (37) if r1 < 0.6, otherwise mossy cobblestone (24) if
r2 < 0.3, otherwise cobblestone (4) — the second draw exists only past the
first, not as a single pre-normalized weighted choice. -/
theorem C7_two_sequential_draws (cx cz depth : ℤ) (r0 : Rng) (k : String) (v : ℤ)
    (h : (k, v) ∈ (hangingBlocks cx cz depth r0).1) : drawScheme r0.stream v := by
  obtain ⟨y, _, x, z, _, hs⟩ := hangingBlocks_new cx cz depth r0 (k, v) h
  exact hs

/-! ### Emission completeness at the center cell, for constant streams -/

theorem hangFoldZ_emits (cx cz y : ℤ) (cr : ℝ) (x : ℤ) (c : ℝ) (hc : ¬ c < 0.4) :
    ∀ (zs : List ℤ) (acc : List (String × ℤ) × Rng), acc.2.stream = (fun _ => c) →
      ∀ z0 ∈ zs, Real.sqrt ((x : ℝ) * x + (z0 : ℝ) * z0) ≤ cr →
        ∃ b : ℤ, (encodeKey (x + cx) (-y) (z0 + cz), b) ∈
          (zs.foldl (fun a z => hangCell cx cz y cr x z a) acc).1 := by
  intro zs
  induction zs with
  | nil => intro acc _ z0 hz0; simp at hz0
  | cons z zs ih =>
    intro acc hs z0 hz0 hd
    rw [List.foldl_cons]
    rcases List.mem_cons.1 hz0 with rfl | hz0
    · obtain ⟨b, hb⟩ := hangCell_emits cx cz y cr x z0 acc hd (by rw [hs]; exact hc)
      exact ⟨b, hangFoldZ_mono cx cz y cr x zs _ _ hb⟩
    · exact ih _ (by rw [hangCell_stream]; exact hs) z0 hz0 hd

theorem hangFoldX_emits (cx cz y : ℤ) (cr : ℝ) (zs : List ℤ) (c : ℝ) (hc : ¬ c < 0.4) :
    ∀ (xs : List ℤ) (acc : List (String × ℤ) × Rng), acc.2.stream = (fun _ => c) →
      ∀ x0 ∈ xs, ∀ z0 ∈ zs, Real.sqrt ((x0 : ℝ) * x0 + (z0 : ℝ) * z0) ≤ cr →
        ∃ b : ℤ, (encodeKey (x0 + cx) (-y) (z0 + cz), b) ∈
          (xs.foldl (fun a x => zs.foldl (fun a2 z => hangCell cx cz y cr x z a2) a) acc).1 := by
  intro xs
  induction xs with
  | nil => intro acc _ x0 hx0; simp at hx0
  | cons x xs ih =>
    intro acc hs x0 hx0 z0 hz0 hd
    rw [List.foldl_cons]
    rcases List.mem_cons.1 hx0 with rfl | hx0
    · obtain ⟨b, hb⟩ := hangFoldZ_emits cx cz y cr x0 c hc zs acc hs z0 hz0 hd
      exact ⟨b, hangFoldX_mono cx cz y cr zs xs _ _ hb⟩
    · exact ih _ (by rw [hangFoldZ_stream]; exact hs) x0 hx0 z0 hz0 hd

theorem hangLayer_emits (cx cz depth : ℤ) (acc : List (String × ℤ) × Rng) (y : ℤ)
    (c : ℝ) (hc : ¬ c < 0.4) (hs : acc.2.stream = (fun _ => c))
    (hcr : 0 ≤ currentRadius depth y) :
    ∃ b : ℤ, (encodeKey (0 + cx) (-y) (0 + cz), b) ∈ (hangLayer cx cz depth acc y).1 := by
  unfold hangLayer
  have hM : 0 ≤ pyInt (currentRadius depth y) := by
    unfold pyInt
    rw [if_pos hcr]
    exact Int.floor_nonneg.mpr hcr
  have h0 : (0 : ℤ) ∈ intRange (-pyInt (currentRadius depth y)) (pyInt (currentRadius depth y)) := by
    rw [mem_intRange]
    omega
  refine hangFoldX_emits cx cz y (currentRadius depth y) _ c hc _ acc hs 0 h0 0 h0 ?_
  rw [show ((0 : ℤ) : ℝ) * ((0 : ℤ) : ℝ) + ((0 : ℤ) : ℝ) * ((0 : ℤ) : ℝ) = 0 by norm_num,
    Real.sqrt_zero]
  exact hcr

theorem hangFoldY_emits (cx cz depth : ℤ) (c : ℝ) (hc : ¬ c < 0.4) :
    ∀ (ys : List ℤ) (acc : List (String × ℤ) × Rng), acc.2.stream = (fun _ => c) →
      ∀ y0 ∈ ys, 0 ≤ currentRadius depth y0 →
        ∃ b : ℤ, (encodeKey (0 + cx) (-y0) (0 + cz), b) ∈
          (ys.foldl (hangLayer cx cz depth) acc).1 := by
  intro ys
  induction ys with
  | nil => intro acc _ y0 hy0; simp at hy0
  | cons y ys ih =>
    intro acc hs y0 hy0 hcr
    rw [List.foldl_cons]
    rcases List.mem_cons.1 hy0 with rfl | hy0
    · obtain ⟨b, hb⟩ := hangLayer_emits cx cz depth acc y0 c hc hs hcr
      exact ⟨b, hangFoldY_mono cx cz depth ys _ _ hb⟩
    · exact ih _ (by rw [hangLayer_stream]; exact hs) y0 hy0 hcr

theorem currentRadius_nonneg (depth y : ℤ) (h0 : 0 ≤ y) (h1 : y ≤ depth) (hd : 0 < depth) :
    0 ≤ currentRadius depth y := by
  unfold currentRadius
  have hdp : (0 : ℝ) < (depth : ℝ) := by exact_mod_cast hd
  have hb0 : (0 : ℝ) ≤ (y : ℝ) / (depth : ℝ) :=
    div_nonneg (by exact_mod_cast h0) (le_of_lt hdp)
  have hb1 : (y : ℝ) / (depth : ℝ) ≤ 1 := by
    rw [div_le_one hdp]
    exact_mod_cast h1
  have := Real.rpow_le_one hb0 hb1 (by norm_num : (0 : ℝ) ≤ 0.7)
  linarith

/-- A layer of the hanging cone under a constant stream of draws at least 0.4
always emits its center cell. -/
theorem hangingBlocks_emits (cx cz depth : ℤ) (c : ℝ) (n : ℕ) (hc : ¬ c < 0.4) (y0 : ℤ)
    (hy : y0 ∈ intRange 1 (depth - 1)) (hd : 0 < depth) :
    ∃ b : ℤ, (encodeKey (0 + cx) (-y0) (0 + cz), b) ∈
      (hangingBlocks cx cz depth (Rng.mk (fun _ => c) n)).1 := by
  unfold hangingBlocks
  rw [mem_intRange] at hy
  refine hangFoldY_emits cx cz depth c hc _ _ rfl y0 (by rw [mem_intRange]; omega) ?_
  exact currentRadius_nonneg depth y0 (by omega) (by omega) hd

/-- Witness for C7: with all draws one half and depth 2, the center cell of
layer 1 is emitted and its block obeys the two-draw scheme. -/
theorem C7_two_sequential_draws_witness :
    ∃ b : ℤ, (encodeKey (0 + 0) (-1) (0 + 0), b) ∈ (hangingBlocks 0 0 2 rng05).1 ∧
      drawScheme rng05.stream b := by
  obtain ⟨b, hb⟩ := hangingBlocks_emits 0 0 2 (1 / 2) 0 (by norm_num) 1
    (by rw [mem_intRange]; omega) (by omega)
  exact ⟨b, hb, C7_two_sequential_draws 0 0 2 rng05 _ b hb⟩

/-- Claim C8: the layer radius 15·(1 − (y/depth)^0.7) is non-increasing in y
over 1..depth−1, vanishes at y = depth, and a depth-30 cone emits hanging
blocks only at world y between −29 and −1 (hence none at y ≤ −30). -/
theorem C8_taper :
    (∀ depth y1 y2 : ℤ, 0 < depth → 1 ≤ y1 → y1 ≤ y2 → y2 ≤ depth - 1 →
        currentRadius depth y2 ≤ currentRadius depth y1) ∧
    (∀ depth : ℤ, 0 < depth → currentRadius depth depth = 0) ∧
    (∀ (cx cz : ℤ) (r0 : Rng) (k : String) (v : ℤ),
        (k, v) ∈ (hangingBlocks cx cz 30 r0).1 →
        ∃ X Y Z : ℤ, k = encodeKey X Y Z ∧ -29 ≤ Y ∧ Y ≤ -1) := by
  refine ⟨?_, ?_, ?_⟩
  · intro depth y1 y2 hd h1 h12 h2
    unfold currentRadius
    have hdp : (0 : ℝ) < (depth : ℝ) := by exact_mod_cast hd
    have hb1 : (0 : ℝ) ≤ (y1 : ℝ) / (depth : ℝ) := by
      apply div_nonneg _ (le_of_lt hdp)
      have : (1 : ℝ) ≤ (y1 : ℝ) := by exact_mod_cast h1
      linarith
    have hle : (y1 : ℝ) / (depth : ℝ) ≤ (y2 : ℝ) / (depth : ℝ) := by
      have hc : (y1 : ℝ) ≤ (y2 : ℝ) := by exact_mod_cast h12
      gcongr
    have hr := Real.rpow_le_rpow hb1 hle (by norm_num : (0 : ℝ) ≤ 0.7)
    linarith
  · intro depth hd
    unfold currentRadius
    have : ((depth : ℝ)) ≠ 0 := by
      have : (0 : ℝ) < (depth : ℝ) := by exact_mod_cast hd
      linarith
    rw [div_self this, Real.one_rpow]
    ring
  · intro cx cz r0 k v h
    obtain ⟨y, hy, x, z, hk, _⟩ := hangingBlocks_new cx cz 30 r0 (k, v) h
    rw [mem_intRange] at hy
    exact ⟨x + cx, -y, z + cz, hk, by omega, by omega⟩

/-- Witness for C8: monotonicity at depth 30 between layers 1 and 2, the zero
radius at layer 30, and a concretely emitted hanging block with its world y in
[−29, −1]. -/
theorem C8_taper_witness :
    currentRadius 30 2 ≤ currentRadius 30 1 ∧ currentRadius 30 30 = 0 ∧
    ∃ b : ℤ, (encodeKey (0 + 0) (-1) (0 + 0), b) ∈ (hangingBlocks 0 0 30 rng05).1 ∧
      ∃ X Y Z : ℤ, encodeKey (0 + 0) (-1) (0 + 0) = encodeKey X Y Z ∧ -29 ≤ Y ∧ Y ≤ -1 := by
  refine ⟨C8_taper.1 30 1 2 (by norm_num) (by norm_num) (by norm_num) (by norm_num),
    C8_taper.2.1 30 (by norm_num), ?_⟩
  obtain ⟨b, hb⟩ := hangingBlocks_emits 0 0 30 (1 / 2) 0 (by norm_num) 1
    (by rw [mem_intRange]; omega) (by omega)
  exact ⟨b, hb, C8_taper.2.2 0 0 rng05 _ b hb⟩

end ConeGen
